import Mathlib

/-! Verification of remove-void-args: `getText` and `FixVoidArg::run`.

A shallow embedding of `RemoveVoidArgs.cpp`.  A `std::string` is a list of
characters, one for each byte, `std::string::size_type` is a natural number below `2 ^ 64` with
`npos = 2 ^ 64 - 1`, and a `std::string` operation that can throw
`std::out_of_range` returns an `Option`.  The Clang objects the tool only
queries (`SourceManager`, `Lexer`, `FunctionDecl`, `MatchResult`) are records
of the answers to those queries.
-/

namespace RemoveVoidArgs

/-! ## `std::string` -/

/-- The value `std::string::npos`, the largest `size_type`. -/
def npos : Nat := 2 ^ 64 - 1

/-- Index of the first occurrence of `c`, if there is one. -/
def firstIndex (c : Char) : List Char → Option Nat
  | [] => none
  | x :: xs => if x = c then some 0 else (firstIndex c xs).map (fun i => i + 1)

/-- Index of the last occurrence of `c`, if there is one. -/
def lastIndex (c : Char) : List Char → Option Nat
  | [] => none
  | x :: xs =>
    match lastIndex c xs with
    | some j => some (j + 1)
    | none => if x = c then some 0 else none

/-- The call `s.find_first_of(c)`: the index of the first `c` in `s`, or `npos`. -/
def find_first_of (s : List Char) (c : Char) : Nat :=
  (firstIndex c s).getD npos

/-- The call `s.find_last_of(c, pos)`: the index of the last `c` among the
characters at indices `0 .. pos` of `s`, or `npos`. -/
def find_last_of (s : List Char) (c : Char) (pos : Nat) : Nat :=
  (lastIndex c (s.take (pos + 1))).getD npos

/-- The call `s.substr(pos, n)`: it throws `std::out_of_range` (here `none`)
when `pos > s.size()`, and otherwise yields the characters from `pos` on, at
most `n` of them.  `s.substr(pos)` is `s.substr(pos, npos)`. -/
def substr (s : List Char) (pos n : Nat) : Option (List Char) :=
  if pos > s.length then none else some ((s.drop pos).take n)

/-- The literal `"(void)"`. -/
def voidArg : List Char := ['(', 'v', 'o', 'i', 'd', ')']

/-- The literal `"()"`. -/
def noArg : List Char := ['(', ')']

/-! ## Clang source locations -/

/-- A `SourceLocation`: an opaque identifier, `0` being the invalid location. -/
structure SourceLocation where
  ID : Nat
  deriving DecidableEq, Repr

/-- The method `SourceLocation::isValid`. -/
def SourceLocation.isValid (l : SourceLocation) : Bool := l.ID != 0

/-- A decomposed location `std::pair<FileID, unsigned>`: a file and a byte
offset in it, the offset being a 32-bit `unsigned`. -/
structure DecomposedLoc where
  first : Nat
  second : Nat
  second_lt : second < 2 ^ 32

/-- The queries `getText` makes to the `SourceManager` and the `Lexer`.
`getCharacterData l` is the pair of the character data from `l` to the end of
its buffer (the `const char *`) and the `Invalid` flag it sets;
`getLocForEndOfToken l` is `Lexer::getLocForEndOfToken(l, 0, SM, LangOptions())`. -/
structure SourceManager where
  getSpellingLoc : SourceLocation → SourceLocation
  getCharacterData : SourceLocation → List Char × Bool
  getDecomposedLoc : SourceLocation → DecomposedLoc
  getLocForEndOfToken : SourceLocation → SourceLocation

/-- What the tool reads of a `FunctionDecl`. -/
structure FunctionDecl where
  isExternC : Bool
  isThisDeclarationADefinition : Bool
  getLocStart : SourceLocation
  getLocEnd : SourceLocation
  deriving DecidableEq, Repr

/-- The function `getText`: the text that makes up the node in the source, or
the empty string if the text cannot be found. -/
def getText (SM : SourceManager) (Node : FunctionDecl) : List Char :=
  let StartSpellingLocation := SM.getSpellingLoc Node.getLocStart
  let EndSpellingLocation := SM.getSpellingLoc Node.getLocEnd
  if !StartSpellingLocation.isValid || !EndSpellingLocation.isValid then []
  else
    let (Text, Invalid) := SM.getCharacterData StartSpellingLocation
    if Invalid then []
    else
      let Start := SM.getDecomposedLoc StartSpellingLocation
      let End := SM.getDecomposedLoc (SM.getLocForEndOfToken EndSpellingLocation)
      if Start.first ≠ End.first then []
      else if End.second < Start.second then []
      else Text.take (End.second - Start.second)

/-! ## Replacements -/

/-- Modelled from the spec: the class `tooling::Replacement` belongs to Clang
and is not part of the source.  The spec's Edit is a pair of a source span and
a replacement text, the span being the full original span of the function
node; the span is kept as the node's begin and end locations. -/
structure Replacement where
  Begin : SourceLocation
  End : SourceLocation
  ReplacementText : List Char
  deriving DecidableEq, Repr

/-- Modelled from the spec: the constructor `Replacement(SM, Function, Text)`
belongs to Clang and is not part of the source.  The span of the Edit is the
full original span of the function node, and its text is `Text`. -/
def Replacement.ofNode (Function : FunctionDecl) (Text : List Char) : Replacement :=
  ⟨Function.getLocStart, Function.getLocEnd, Text⟩

/-- Modelled from the spec: the container `tooling::Replacements` belongs to
Clang and is not part of the source.  The spec's EditSet is an append-only
accumulator of Edits, in the order they were recorded. -/
abbrev Replacements := List Replacement

/-- Modelled from the spec: `Replace->insert(e)` appends the Edit to the
EditSet. -/
def Replacements.insert (Replace : Replacements) (e : Replacement) : Replacements :=
  Replace ++ [e]

/-! ## The match callback -/

/-- A `MatchFinder::MatchResult`: `Nodes id` is `Nodes.getNodeAs<FunctionDecl>(id)`,
`none` being the null pointer. -/
structure MatchResult where
  Nodes : String → Option FunctionDecl
  SourceManager : SourceManager

/-- The local `end_of_decl` of `FixVoidArg::run`:
`text.find_last_of(')', text.find_first_of('{')) + 1`, computed in `size_type`,
so that `npos + 1` is `0`. -/
def end_of_decl (text : List Char) : Nat :=
  (find_last_of text ')' (find_first_of text '{') + 1) % 2 ^ 64

/-- The callback `FixVoidArg::run`, as a function from the replacements held
before the call to those held after it; `none` is an uncaught
`std::out_of_range`. -/
def FixVoidArg.run (Result : MatchResult) (Replace : Replacements) : Option Replacements :=
  match Result.Nodes "fn" with
  | none => some Replace
  | some Function =>
    if Function.isExternC then some Replace
    else
      let text := getText Result.SourceManager Function
      if !Function.isThisDeclarationADefinition then
        if text.length > 6 then
          (substr text (text.length - 6) npos).bind fun tail =>
          if tail = voidArg then
            (substr text 0 (text.length - 6)).bind fun head =>
            let noVoid := head ++ noArg
            some (Replace.insert (Replacement.ofNode Function noVoid))
          else some Replace
        else some Replace
      else if text.length > 0 then
        (substr text 0 (end_of_decl text)).bind fun decl =>
        if decl.length > 6 then
          (substr decl (decl.length - 6) npos).bind fun tail =>
          if tail = voidArg then
            (substr decl 0 (decl.length - 6)).bind fun head =>
            (substr text (end_of_decl text) npos).bind fun rest =>
            let noVoid := head ++ noArg ++ rest
            some (Replace.insert (Replacement.ofNode Function noVoid))
          else some Replace
        else some Replace
      else some Replace

open FixVoidArg

/-! ## The declarator in the words of the spec -/

/-- The spec's `declSpanText` of a definition (section 4.2), written from its
words and not from the code: take the substring that precedes the first `{`
of the text (the whole text when it has none) and keep it up to and including
its last `)`; it is empty when that substring has no `)`. -/
def declSpanText (text : List Char) : List Char :=
  ((text.takeWhile (fun c => c != '{')).reverse.dropWhile (fun c => c != ')')).reverse

/-! ## Concrete inputs -/

/-- A `SourceManager` with a single file holding `buf`: location `n + 1` is
offset `n` of that file, every location is its own spelling location, and
the token beginning at a location is one character long. -/
def oneFile (buf : List Char) : SourceManager where
  getSpellingLoc := fun l => l
  getCharacterData := fun l => (buf.drop (l.ID - 1), false)
  getDecomposedLoc := fun l => ⟨0, (l.ID - 1) % 2 ^ 32, Nat.mod_lt _ (by decide)⟩
  getLocForEndOfToken := fun l => ⟨l.ID + 1⟩

/-- A function node spanning the whole of a one-file buffer `buf`, whose last
token is its last character. -/
def wholeNode (externC isDef : Bool) (buf : List Char) : FunctionDecl :=
  ⟨externC, isDef, ⟨1⟩, ⟨buf.length⟩⟩

/-- The match result binding `"fn"` to `wholeNode externC isDef buf`. -/
def wholeMatch (externC isDef : Bool) (buf : List Char) : MatchResult :=
  ⟨fun _ => some (wholeNode externC isDef buf), oneFile buf⟩

/-- The first twelve lines of the test input `orig.cpp`. -/
def origCpp : List Char :=
  ("#include <cstdio>\n\nint foo(void);\n\nint foo(void)\n\x7b\n    return 0;\n\x7d\n\n" ++
    "void bar()\n\x7b\n\x7d\n").toList

/-- The declaration of `foo` on line 3 of `orig.cpp`: it begins at offset 19
and its last token, the closing parenthesis, is at offset 31. -/
def fooDeclaration : FunctionDecl := ⟨false, false, ⟨20⟩, ⟨32⟩⟩

/-- The definition of `foo` on lines 5 to 8 of `orig.cpp`: it begins at
offset 35 and its last token, the closing brace, is at offset 65. -/
def fooDefinition : FunctionDecl := ⟨false, true, ⟨36⟩, ⟨66⟩⟩

/-- The definition of `bar` on lines 10 to 12 of `orig.cpp`: it begins at
offset 68 and its last token, the closing brace, is at offset 81. -/
def barDefinition : FunctionDecl := ⟨false, true, ⟨69⟩, ⟨82⟩⟩

/-- A `SourceManager` like `oneFile buf` whose character data is reported
invalid. -/
def invalidData (buf : List Char) : SourceManager :=
  { oneFile buf with getCharacterData := fun _ => ([], true) }

/-- A `SourceManager` like `oneFile buf` that puts every location in a file of
its own, as when a macro splices text from several files. -/
def manyFiles (buf : List Char) : SourceManager :=
  { oneFile buf with
    getDecomposedLoc := fun l => ⟨l.ID, (l.ID - 1) % 2 ^ 32, Nat.mod_lt _ (by decide)⟩ }

/-- A definition `auto f() -> int(*)(void) { return 0; }`: no parameters, and
a trailing return type that is a pointer to a function. -/
def trailingReturn : List Char := "auto f() -> int(*)(void) \x7b return 0; \x7d".toList

/-- A `SourceManager` like `oneFile buf` in which the token beginning at a
location is `n` characters long. -/
def longToken (buf : List Char) (n : Nat) : SourceManager :=
  { oneFile buf with getLocForEndOfToken := fun l => ⟨l.ID + n⟩ }

/-- A defaulted constructor `gronk(void) = default`, a definition without a
body. -/
def gronkDefault : List Char := "gronk(void) = default".toList

/-- The node of `gronkDefault`: it begins at offset 0 and its last token,
`default`, of seven characters, begins at offset 14. -/
def gronkNode : FunctionDecl := ⟨false, true, ⟨1⟩, ⟨15⟩⟩

/-- The match result binding `"fn"` to `gronkNode`. -/
def gronkMatch : MatchResult :=
  ⟨fun _ => some gronkNode, longToken gronkDefault 7⟩

/-- A definition whose text, spelled through a macro, is `MAIN { start(); }`:
no `)` stands before its first `{`. -/
def macroMain : List Char := "MAIN \x7b start(); \x7d".toList

/-- The match result binding `"fn"` to a node of `orig.cpp`. -/
def origMatch (Function : FunctionDecl) : MatchResult :=
  ⟨fun _ => some Function, oneFile origCpp⟩

/-! ## Facts about the string operations -/

theorem substr_zero (s : List Char) (n : Nat) : substr s 0 n = some (s.take n) := by
  simp [substr]

theorem substr_npos (s : List Char) (pos : Nat) (hpos : pos ≤ s.length)
    (hlen : s.length ≤ npos + pos) : substr s pos npos = some (s.drop pos) := by
  have h : ¬ pos > s.length := by omega
  simp only [substr, h, if_false]
  rw [List.take_of_length_le]
  simp only [List.length_drop]
  omega

theorem getText_length_lt (SM : SourceManager) (Node : FunctionDecl) :
    (getText SM Node).length < 2 ^ 32 := by
  unfold getText
  simp only
  split
  · simp
  · split
    · simp
    · split
      · simp
      · split
        · simp
        · have h := (SM.getDecomposedLoc
            (SM.getLocForEndOfToken (SM.getSpellingLoc Node.getLocEnd))).second_lt
          simp only [List.length_take]
          omega

theorem getText_length_le_npos (SM : SourceManager) (Node : FunctionDecl) :
    (getText SM Node).length ≤ npos := by
  have h := getText_length_lt SM Node
  have h2 : (2 : Nat) ^ 32 ≤ npos := by decide
  omega

theorem firstIndex_eq_none {c : Char} {s : List Char} (h : c ∉ s) :
    firstIndex c s = none := by
  induction s with
  | nil => rfl
  | cons x xs ih =>
    have hx : x ≠ c := fun e => h (by simp [e])
    have hxs : c ∉ xs := fun e => h (by simp [e])
    simp [firstIndex, hx, ih hxs]

theorem firstIndex_append {c : Char} (pre post : List Char) (h : c ∉ pre) :
    firstIndex c (pre ++ c :: post) = some pre.length := by
  induction pre with
  | nil => simp [firstIndex]
  | cons x xs ih =>
    have hx : x ≠ c := fun e => h (by simp [e])
    have hxs : c ∉ xs := fun e => h (by simp [e])
    simp [firstIndex, hx, ih hxs]

theorem firstIndex_some_split {c : Char} {s : List Char} {i : Nat}
    (h : firstIndex c s = some i) :
    ∃ pre post, s = pre ++ c :: post ∧ c ∉ pre ∧ pre.length = i := by
  induction s generalizing i with
  | nil => simp [firstIndex] at h
  | cons x xs ih =>
    by_cases hx : x = c
    · simp [firstIndex, hx] at h
      exact ⟨[], xs, by simp [hx], by simp, by simp [h]⟩
    · simp only [firstIndex, hx, if_false, Option.map_eq_some'] at h
      obtain ⟨j, hj, rfl⟩ := h
      obtain ⟨pre, post, rfl, hpre, rfl⟩ := ih hj
      refine ⟨x :: pre, post, by simp, ?_, by simp⟩
      simp only [List.mem_cons, not_or]
      exact ⟨fun e => hx e.symm, hpre⟩

theorem lastIndex_eq_none {c : Char} {s : List Char} (h : c ∉ s) :
    lastIndex c s = none := by
  induction s with
  | nil => rfl
  | cons x xs ih =>
    have hx : x ≠ c := fun e => h (by simp [e])
    have hxs : c ∉ xs := fun e => h (by simp [e])
    simp [lastIndex, hx, ih hxs]

theorem lastIndex_append {c : Char} (x y : List Char) (h : c ∉ y) :
    lastIndex c (x ++ c :: y) = some x.length := by
  induction x with
  | nil => simp [lastIndex, lastIndex_eq_none h]
  | cons a as ih => simp [lastIndex, ih]

theorem lastIndex_none_not_mem {c : Char} {s : List Char} (h : lastIndex c s = none) :
    c ∉ s := by
  induction s with
  | nil => simp
  | cons a as ih =>
    cases hl : lastIndex c as with
    | some k => simp [lastIndex, hl] at h
    | none =>
      simp only [lastIndex, hl] at h
      by_cases ha : a = c
      · simp [ha] at h
      · simp only [List.mem_cons, not_or]
        exact ⟨fun e => ha e.symm, ih hl⟩

theorem firstIndex_none_not_mem {c : Char} {s : List Char} (h : firstIndex c s = none) :
    c ∉ s := by
  induction s with
  | nil => simp
  | cons a as ih =>
    by_cases ha : a = c
    · simp [firstIndex, ha] at h
    · simp only [firstIndex, ha, if_false, Option.map_eq_none'] at h
      simp only [List.mem_cons, not_or]
      exact ⟨fun e => ha e.symm, ih h⟩

theorem lastIndex_some_split {c : Char} {s : List Char} {j : Nat}
    (h : lastIndex c s = some j) :
    ∃ x y, s = x ++ c :: y ∧ c ∉ y ∧ x.length = j := by
  induction s generalizing j with
  | nil => simp [lastIndex] at h
  | cons a as ih =>
    cases hl : lastIndex c as with
    | some k =>
      simp only [lastIndex, hl, Option.some.injEq] at h
      obtain ⟨x, y, rfl, hy, rfl⟩ := ih hl
      exact ⟨a :: x, y, by simp, hy, by simpa using h⟩
    | none =>
      simp only [lastIndex, hl] at h
      by_cases ha : a = c
      · simp only [ha, if_true, Option.some.injEq] at h
        exact ⟨[], as, by simp [ha], lastIndex_none_not_mem hl, by simpa using h⟩
      · simp [ha] at h

/-! ## Where the declarator ends -/

theorem end_of_decl_split (x m rest : List Char) (hx : '{' ∉ x) (hm : ')' ∉ m)
    (hm2 : '{' ∉ m) (hrest : rest = [] ∨ ∃ b, rest = '{' :: b)
    (hlen : (x ++ ')' :: (m ++ rest)).length ≤ npos) :
    end_of_decl (x ++ ')' :: (m ++ rest)) = x.length + 1 := by
  have hnp : npos + 1 = 2 ^ 64 := by decide
  have hxl : x.length + 1 < 2 ^ 64 := by
    simp only [List.length_append, List.length_cons] at hlen
    omega
  rcases hrest with rfl | ⟨b, rfl⟩
  · have hno : '{' ∉ x ++ ')' :: (m ++ []) := by
      simp only [List.append_nil, List.mem_append, List.mem_cons, not_or]
      exact ⟨hx, by decide, hm2⟩
    have htake : (x ++ ')' :: (m ++ [])).take (npos + 1) = x ++ ')' :: (m ++ []) :=
      List.take_of_length_le (by omega)
    have hm' : ')' ∉ m ++ [] := by simpa using hm
    simp only [end_of_decl, find_first_of, firstIndex_eq_none hno, Option.getD_none,
      find_last_of, htake, lastIndex_append x (m ++ []) hm', Option.getD_some]
    exact Nat.mod_eq_of_lt hxl
  · have hpre : '{' ∉ x ++ ')' :: m := by
      simp only [List.mem_append, List.mem_cons, not_or]
      exact ⟨hx, by decide, hm2⟩
    have heq : x ++ ')' :: (m ++ '{' :: b) = (x ++ ')' :: m) ++ '{' :: b := by simp
    have htake : ((x ++ ')' :: m) ++ '{' :: b).take ((x ++ ')' :: m).length + 1)
        = x ++ ')' :: (m ++ ['{']) := by
      have h1 : (x ++ ')' :: m) ++ '{' :: b = ((x ++ ')' :: m) ++ ['{']) ++ b := by simp
      have h2 : (x ++ ')' :: m).length + 1 = ((x ++ ')' :: m) ++ ['{']).length := by
        simp only [List.length_append, List.length_cons, List.length_nil]
      rw [h1, h2, List.take_left]
      simp
    have hm' : ')' ∉ m ++ ['{'] := by
      simp only [List.mem_append, List.mem_singleton, not_or]
      exact ⟨hm, by decide⟩
    rw [heq]
    simp only [end_of_decl, find_first_of, firstIndex_append _ b hpre, Option.getD_some,
      find_last_of, htake, lastIndex_append x (m ++ ['{']) hm']
    exact Nat.mod_eq_of_lt hxl

theorem end_of_decl_cases (t : List Char) (hlen : t.length ≤ npos) :
    end_of_decl t = 0 ∨
    ∃ x m rest, t = x ++ ')' :: (m ++ rest) ∧ '{' ∉ x ∧ ')' ∉ m ∧ '{' ∉ m ∧
      (rest = [] ∨ ∃ b, rest = '{' :: b) ∧ end_of_decl t = x.length + 1 := by
  have hnp : (npos + 1) % 2 ^ 64 = 0 := by decide
  cases hf : firstIndex '{' t with
  | none =>
    have hno := firstIndex_none_not_mem hf
    have htake : t.take (npos + 1) = t := List.take_of_length_le (by omega)
    cases hl : lastIndex ')' t with
    | none =>
      left
      simp only [end_of_decl, find_first_of, hf, find_last_of, htake, hl, Option.getD_none,
        Option.getD_some]
      exact hnp
    | some j =>
      right
      obtain ⟨x, y, rfl, hy, -⟩ := lastIndex_some_split hl
      simp only [List.mem_append, List.mem_cons, not_or] at hno
      have hlen2 : (x ++ ')' :: (y ++ [])).length ≤ npos := by simpa using hlen
      have h := end_of_decl_split x y [] hno.1 hy hno.2.2 (Or.inl rfl) hlen2
      refine ⟨x, y, [], by simp, hno.1, hy, hno.2.2, Or.inl rfl, ?_⟩
      simpa using h
  | some i =>
    obtain ⟨pre, post, rfl, hpre, rfl⟩ := firstIndex_some_split hf
    have htake : (pre ++ '{' :: post).take (pre.length + 1) = pre ++ ['{'] := by
      have h1 : pre ++ '{' :: post = (pre ++ ['{']) ++ post := by simp
      have h2 : pre.length + 1 = (pre ++ ['{']).length := by simp
      rw [h1, h2, List.take_left]
    cases hl : lastIndex ')' (pre ++ ['{']) with
    | none =>
      left
      simp only [end_of_decl, find_first_of, hf, find_last_of, htake, hl, Option.getD_none,
        Option.getD_some]
      exact hnp
    | some j =>
      right
      obtain ⟨x, y, hxy, hy, -⟩ := lastIndex_some_split hl
      rcases List.eq_nil_or_concat y with rfl | ⟨m, c, rfl⟩
      · have := congrArg List.getLast? hxy
        simp at this
      · have hxy2 : pre ++ ['{'] = (x ++ ')' :: m) ++ [c] := by simpa using hxy
        obtain ⟨h1, h2⟩ := List.append_inj' hxy2 rfl
        have hc : c = '{' := by simpa using h2.symm
        subst hc
        subst h1
        have hpre : '{' ∉ x ∧ '{' ∉ m := by
          constructor
          · exact fun e => hpre (by simp [e])
          · exact fun e => hpre (by simp [e])
        have hy : ')' ∉ m := fun e => hy (by simp [e])
        have hlen2 : (x ++ ')' :: (m ++ '{' :: post)).length ≤ npos := by simpa using hlen
        have h := end_of_decl_split x m ('{' :: post) hpre.1 hy hpre.2
          (Or.inr ⟨post, rfl⟩) hlen2
        refine ⟨x, m, '{' :: post, by simp, hpre.1, hy, hpre.2, Or.inr ⟨post, rfl⟩, ?_⟩
        simpa using h

theorem end_of_decl_le (t : List Char) (hlen : t.length ≤ npos) :
    end_of_decl t ≤ t.length := by
  rcases end_of_decl_cases t hlen with h | ⟨x, m, rest, rfl, -, -, -, -, h⟩
  · omega
  · rw [h]
    simp only [List.length_append, List.length_cons]
    omega

/-! ## The literal suffix test -/

theorem ends_voidArg_iff (d : List Char) :
    (6 < d.length ∧ d.drop (d.length - 6) = voidArg) ↔ ∃ p, p ≠ [] ∧ d = p ++ voidArg := by
  constructor
  · rintro ⟨hlen, hdrop⟩
    refine ⟨d.take (d.length - 6), ?_, ?_⟩
    · intro h
      have := congrArg List.length h
      simp only [List.length_take, List.length_nil] at this
      omega
    · rw [← hdrop]
      exact (List.take_append_drop _ d).symm
  · rintro ⟨p, hp, rfl⟩
    have hpl : 0 < p.length := List.length_pos.mpr hp
    have h6 : (p ++ voidArg).length - 6 = p.length := by simp [voidArg]
    refine ⟨by simp only [List.length_append, voidArg, List.length_cons, List.length_nil]; omega, ?_⟩
    rw [h6, List.drop_left]

theorem take_voidArg (p : List Char) :
    (p ++ voidArg).take ((p ++ voidArg).length - 6) = p := by
  have h6 : (p ++ voidArg).length - 6 = p.length := by simp [voidArg]
  rw [h6, List.take_left]

theorem noArg_not_ends_voidArg (p q : List Char) : p ++ noArg ≠ q ++ voidArg := by
  intro h
  have h1 : p ++ noArg = (p ++ ['(']) ++ [')'] := by simp [noArg]
  have h2 : q ++ voidArg = (q ++ ['(', 'v', 'o', 'i', 'd']) ++ [')'] := by simp [voidArg]
  rw [h1, h2] at h
  have h3 := (List.append_inj' h rfl).1
  have h4 : p ++ ['('] = (q ++ ['(', 'v', 'o', 'i']) ++ ['d'] := by simpa using h3
  have h5 := (List.append_inj' h4 rfl).2
  exact absurd h5 (by decide)

/-! ## What `run` computes -/

theorem run_externC (Result : MatchResult) (Replace : Replacements) (Function : FunctionDecl)
    (hfn : Result.Nodes "fn" = some Function) (hC : Function.isExternC = true) :
    run Result Replace = some Replace := by
  simp [run, hfn, hC]

theorem run_declaration (Result : MatchResult) (Replace : Replacements)
    (Function : FunctionDecl) (t : List Char) (hfn : Result.Nodes "fn" = some Function)
    (hC : Function.isExternC = false)
    (hdef : Function.isThisDeclarationADefinition = false)
    (ht : getText Result.SourceManager Function = t) :
    run Result Replace =
      if 6 < t.length ∧ t.drop (t.length - 6) = voidArg then
        some (Replace ++ [Replacement.ofNode Function (t.take (t.length - 6) ++ noArg)])
      else some Replace := by
  have hlen := getText_length_le_npos Result.SourceManager Function
  rw [ht] at hlen
  simp only [run, hfn, hC, hdef, ht, Bool.false_eq_true, if_false, Bool.not_false, if_true]
  by_cases h6 : 6 < t.length
  · have hs : substr t (t.length - 6) npos = some (t.drop (t.length - 6)) :=
      substr_npos t _ (by omega) (by omega)
    simp only [gt_iff_lt, h6, if_true, hs, Option.some_bind, substr_zero, true_and,
      Replacements.insert]
  · simp [h6]

theorem run_definition (Result : MatchResult) (Replace : Replacements)
    (Function : FunctionDecl) (t : List Char) (hfn : Result.Nodes "fn" = some Function)
    (hC : Function.isExternC = false)
    (hdef : Function.isThisDeclarationADefinition = true)
    (ht : getText Result.SourceManager Function = t) :
    run Result Replace =
      if 6 < (t.take (end_of_decl t)).length ∧
          (t.take (end_of_decl t)).drop ((t.take (end_of_decl t)).length - 6) = voidArg then
        some (Replace ++ [Replacement.ofNode Function
          ((t.take (end_of_decl t)).take ((t.take (end_of_decl t)).length - 6) ++ noArg ++
            t.drop (end_of_decl t))])
      else some Replace := by
  have hlen := getText_length_le_npos Result.SourceManager Function
  rw [ht] at hlen
  have hle := end_of_decl_le t hlen
  simp only [run, hfn, hC, hdef, ht, Bool.false_eq_true, if_false, Bool.not_true, substr_zero,
    Option.some_bind]
  by_cases h0 : t.length > 0
  · simp only [h0, if_true]
    generalize hd : t.take (end_of_decl t) = d
    by_cases h6 : 6 < d.length
    · have hdl : d.length ≤ t.length := by
        rw [← hd, List.length_take]
        omega
      have hs : substr d (d.length - 6) npos = some (d.drop (d.length - 6)) :=
        substr_npos d _ (by omega) (by omega)
      have hr : substr t (end_of_decl t) npos = some (t.drop (end_of_decl t)) :=
        substr_npos t _ hle (by omega)
      simp only [gt_iff_lt, h6, if_true, hs, Option.some_bind, hr, true_and,
        Replacements.insert]
    · simp [h6]
  · have ht0 : t = [] := by
      cases t with
      | nil => rfl
      | cons a as => simp at h0
    subst ht0
    simp

theorem some_ne_some_append (Replace : Replacements) (e : Replacement) :
    some Replace ≠ some (Replace ++ [e]) := by
  intro h
  have h2 := congrArg List.length (Option.some.inj h)
  simp at h2

theorem noArg_fails_test (p : List Char) :
    ¬ (6 < (p ++ noArg).length ∧
      (p ++ noArg).drop ((p ++ noArg).length - 6) = voidArg) := by
  intro h
  obtain ⟨q, -, hq⟩ := (ends_voidArg_iff _).mp h
  exact noArg_not_ends_voidArg p q hq

theorem take_succ_append_cons (x y : List Char) (c : Char) :
    (x ++ c :: y).take (x.length + 1) = x ++ [c] := by
  have h1 : x ++ c :: y = (x ++ [c]) ++ y := by simp
  have h2 : x.length + 1 = (x ++ [c]).length := by simp
  rw [h1, h2, List.take_left]

theorem drop_succ_append_cons (x y : List Char) (c : Char) :
    (x ++ c :: y).drop (x.length + 1) = y := by
  have h1 : x ++ c :: y = (x ++ [c]) ++ y := by simp
  have h2 : x.length + 1 = (x ++ [c]).length := by simp
  rw [h1, h2, List.drop_left]

/-- The declarator found in a rewritten definition is the rewritten declarator. -/
theorem rewritten_declarator (t p : List Char) (hlen : t.length ≤ npos)
    (hd : t.take (end_of_decl t) = p ++ voidArg)
    (hrlen : (p ++ noArg ++ t.drop (end_of_decl t)).length ≤ npos) :
    (p ++ noArg ++ t.drop (end_of_decl t)).take
      (end_of_decl (p ++ noArg ++ t.drop (end_of_decl t))) = p ++ noArg := by
  rcases end_of_decl_cases t hlen with h0 | ⟨x, m, rest, rfl, hx, hm, hm2, hrest, heod⟩
  · rw [h0] at hd
    have := congrArg List.length hd
    simp [voidArg] at this
  · rw [heod, take_succ_append_cons] at hd
    rw [heod, drop_succ_append_cons] at hrlen ⊢
    have hd2 : x ++ [')'] = (p ++ ['(', 'v', 'o', 'i', 'd']) ++ [')'] := by
      rw [hd]
      simp [voidArg]
    have hxp : x = p ++ ['(', 'v', 'o', 'i', 'd'] := (List.append_inj' hd2 rfl).1
    have hp : '{' ∉ p ++ ['('] := by
      intro hmem
      rcases List.mem_append.mp hmem with h | h
      · exact hx (by rw [hxp]; exact List.mem_append_left _ h)
      · exact absurd h (by decide)
    have hr : p ++ noArg ++ (m ++ rest) = (p ++ ['(']) ++ ')' :: (m ++ rest) := by
      simp [noArg]
    rw [hr] at hrlen ⊢
    rw [end_of_decl_split _ m rest hp hm hm2 hrest hrlen, take_succ_append_cons]
    simp [noArg]

theorem split_at_last_unique {c : Char} {a b a2 b2 : List Char}
    (hb : c ∉ b) (hb2 : c ∉ b2) (h : a ++ c :: b = a2 ++ c :: b2) : a = a2 ∧ b = b2 := by
  have h1 := lastIndex_append a b hb
  rw [h, lastIndex_append a2 b2 hb2] at h1
  have hl : a2.length = a.length := Option.some.inj h1
  obtain ⟨h2, h3⟩ := List.append_inj h hl.symm
  exact ⟨h2, (List.cons.inj h3).2⟩

/-! ## Declarations -/

/-- C1 (as stated, refuted): a pure declaration that is not extern "C" and
whose extracted text is exactly the six characters `(void)` ends in `(void)`,
yet `run` records no Edit for it, so it does not record the Edit with
replacement `()`. -/
theorem C1_bare_void_records_nothing :
    (wholeNode false false voidArg).isExternC = false ∧
    (wholeNode false false voidArg).isThisDeclarationADefinition = false ∧
    (wholeMatch false false voidArg).Nodes "fn" = some (wholeNode false false voidArg) ∧
    getText (wholeMatch false false voidArg).SourceManager (wholeNode false false voidArg)
      = [] ++ voidArg ∧
    run (wholeMatch false false voidArg) [] = some [] ∧
    run (wholeMatch false false voidArg) []
      ≠ some ([] ++ [Replacement.ofNode (wholeNode false false voidArg) ([] ++ noArg)]) := by
  decide

/-- C1 (amended): for every function node that is not extern "C" and is not a
definition, and every extracted text `p ++ "(void)"` with `p` non-empty (the
text has more than six characters and ends in `(void)`), `run` records exactly
one Edit, for that node, whose replacement text is `p ++ "()"`. -/
theorem C1_declaration_rewrite (Result : MatchResult) (Replace : Replacements)
    (Function : FunctionDecl) (p : List Char)
    (hfn : Result.Nodes "fn" = some Function)
    (hC : Function.isExternC = false)
    (hdef : Function.isThisDeclarationADefinition = false)
    (hp : p ≠ [])
    (ht : getText Result.SourceManager Function = p ++ voidArg) :
    run Result Replace = some (Replace ++ [Replacement.ofNode Function (p ++ noArg)]) := by
  rw [run_declaration Result Replace Function _ hfn hC hdef ht,
    if_pos ((ends_voidArg_iff _).mpr ⟨p, hp, rfl⟩), take_voidArg]

/-- C1 (witness): the declaration of `foo` on line 3 of `orig.cpp`, whose text
is `int foo(void)`, gets the replacement `int foo()`. -/
theorem C1_declaration_rewrite_witness :
    getText (origMatch fooDeclaration).SourceManager fooDeclaration
      = "int foo".toList ++ voidArg ∧
    run (origMatch fooDeclaration) []
      = some ([] ++ [Replacement.ofNode fooDeclaration ("int foo".toList ++ noArg)]) :=
  ⟨by decide,
   C1_declaration_rewrite (origMatch fooDeclaration) [] fooDeclaration "int foo".toList
     rfl rfl rfl (by decide) (by decide)⟩

/-! ## Definitions -/

/-- C2: for every definition that is not extern "C" and whose extracted text is
`p ++ "(void)" ++ m ++ "{" ++ b`, where `p` is non-empty and has no `{` and `m`
has neither `)` nor `{` (so the first `{` of the text is the one after `m`, the
last `)` before it is the one closing `(void)`, the declarator `d` is
`p ++ "(void)"` and the suffix `s` is `m ++ "{" ++ b`), `run` records exactly
one Edit, whose replacement text is `p ++ "()"` followed by the unchanged
suffix. -/
theorem C2_definition_rewrite (Result : MatchResult) (Replace : Replacements)
    (Function : FunctionDecl) (p m b : List Char)
    (hfn : Result.Nodes "fn" = some Function)
    (hC : Function.isExternC = false)
    (hdef : Function.isThisDeclarationADefinition = true)
    (hp : p ≠ []) (hpb : '{' ∉ p) (hm : ')' ∉ m) (hmb : '{' ∉ m)
    (ht : getText Result.SourceManager Function = p ++ voidArg ++ (m ++ '{' :: b)) :
    run Result Replace
      = some (Replace ++ [Replacement.ofNode Function (p ++ noArg ++ (m ++ '{' :: b))]) := by
  have hlen := getText_length_le_npos Result.SourceManager Function
  have hsplit : p ++ voidArg ++ (m ++ '{' :: b)
      = (p ++ ['(', 'v', 'o', 'i', 'd']) ++ ')' :: (m ++ '{' :: b) := by simp [voidArg]
  have hx : '{' ∉ p ++ ['(', 'v', 'o', 'i', 'd'] := by
    simp only [List.mem_append, not_or]
    exact ⟨hpb, by decide⟩
  rw [ht, hsplit] at hlen
  have heod := end_of_decl_split _ m ('{' :: b) hx hm hmb (Or.inr ⟨b, rfl⟩) hlen
  rw [← hsplit] at heod
  have hl : (p ++ ['(', 'v', 'o', 'i', 'd']).length + 1 = (p ++ voidArg).length := by
    simp [voidArg]
  have htake : (p ++ voidArg ++ (m ++ '{' :: b)).take
      (end_of_decl (p ++ voidArg ++ (m ++ '{' :: b))) = p ++ voidArg := by
    rw [heod, hl, List.take_left]
  have hdrop : (p ++ voidArg ++ (m ++ '{' :: b)).drop
      (end_of_decl (p ++ voidArg ++ (m ++ '{' :: b))) = m ++ '{' :: b := by
    rw [heod, hl, List.drop_left]
  rw [run_definition Result Replace Function _ hfn hC hdef ht, htake, hdrop,
    if_pos ((ends_voidArg_iff _).mpr ⟨p, hp, rfl⟩), take_voidArg]

/-- C2 (witness): the definition of `foo` on lines 5 to 8 of `orig.cpp` keeps
its body and the line break before it. -/
theorem C2_definition_rewrite_witness :
    getText (origMatch fooDefinition).SourceManager fooDefinition
      = "int foo".toList ++ voidArg ++ ("\n".toList ++ '{' :: "\n    return 0;\n\x7d".toList) ∧
    run (origMatch fooDefinition) []
      = some ([] ++ [Replacement.ofNode fooDefinition
          ("int foo".toList ++ noArg ++ ("\n".toList ++ '{' :: "\n    return 0;\n\x7d".toList))]) :=
  ⟨by decide,
   C2_definition_rewrite (origMatch fooDefinition) [] fooDefinition "int foo".toList
     "\n".toList "\n    return 0;\n\x7d".toList
     rfl rfl rfl (by decide) (by decide) (by decide) (by decide) (by decide)⟩

/-! ## Nodes that are skipped -/

/-- C3: for every function node with extern "C" linkage, whatever its text and
whether it is a declaration or a definition, `run` returns normally and leaves
the replacements exactly as they were. -/
theorem C3_externC_exempt (Result : MatchResult) (Replace : Replacements)
    (Function : FunctionDecl)
    (hfn : Result.Nodes "fn" = some Function)
    (hC : Function.isExternC = true) :
    run Result Replace = some Replace :=
  run_externC Result Replace Function hfn hC

/-- C3 (witness): an extern "C" declaration spelled `int foo(void)` is left
alone, also when an Edit is already held. -/
theorem C3_externC_exempt_witness :
    getText (wholeMatch true false "int foo(void)".toList).SourceManager
      (wholeNode true false "int foo(void)".toList) = "int foo(void)".toList ∧
    run (wholeMatch true false "int foo(void)".toList) [⟨⟨1⟩, ⟨2⟩, noArg⟩]
      = some [⟨⟨1⟩, ⟨2⟩, noArg⟩] :=
  ⟨by decide,
   C3_externC_exempt (wholeMatch true false "int foo(void)".toList) [⟨⟨1⟩, ⟨2⟩, noArg⟩]
     (wholeNode true false "int foo(void)".toList) rfl rfl⟩

/-- C4: for every pure declaration whose extracted text does not end in the six
characters `(void)`, `run` returns normally and records no Edit. -/
theorem C4_other_spelling_untouched (Result : MatchResult) (Replace : Replacements)
    (Function : FunctionDecl)
    (hfn : Result.Nodes "fn" = some Function)
    (hdef : Function.isThisDeclarationADefinition = false)
    (hnot : ¬ voidArg <:+ getText Result.SourceManager Function) :
    run Result Replace = some Replace := by
  cases hC : Function.isExternC with
  | true => exact run_externC Result Replace Function hfn hC
  | false =>
    rw [run_declaration Result Replace Function _ hfn hC hdef rfl, if_neg]
    intro h
    obtain ⟨p, -, hp⟩ := (ends_voidArg_iff _).mp h
    exact hnot ⟨p, hp.symm⟩

/-- C4 (witness): declarations spelled `void foo( void )` are left alone. -/
theorem C4_other_spelling_untouched_witness :
    getText (wholeMatch false false "void foo( void )".toList).SourceManager
      (wholeNode false false "void foo( void )".toList) = "void foo( void )".toList ∧
    run (wholeMatch false false "void foo( void )".toList) [] = some [] :=
  ⟨by decide,
   C4_other_spelling_untouched (wholeMatch false false "void foo( void )".toList) []
     (wholeNode false false "void foo( void )".toList) rfl rfl (by decide)⟩

/-! ## Running the pass again -/

/-- C5: for a declaration as for a definition, if `run` records an Edit `e` for
a node, then on any node of the same kind whose extracted text is the
replacement text of `e`, `run` returns normally and records no Edit. -/
theorem C5_second_pass_is_silent (Result Result2 : MatchResult)
    (Replace Replace2 : Replacements) (Function Function2 : FunctionDecl) (e : Replacement)
    (hfn : Result.Nodes "fn" = some Function)
    (hfn2 : Result2.Nodes "fn" = some Function2)
    (hkind : Function2.isThisDeclarationADefinition = Function.isThisDeclarationADefinition)
    (hrun : run Result Replace = some (Replace ++ [e]))
    (ht2 : getText Result2.SourceManager Function2 = e.ReplacementText) :
    run Result2 Replace2 = some Replace2 := by
  cases hC2 : Function2.isExternC with
  | true => exact run_externC Result2 Replace2 Function2 hfn2 hC2
  | false =>
    cases hC : Function.isExternC with
    | true =>
      rw [run_externC Result Replace Function hfn hC] at hrun
      exact absurd hrun (some_ne_some_append Replace e)
    | false =>
      have hlen := getText_length_le_npos Result.SourceManager Function
      have hlen2 := getText_length_le_npos Result2.SourceManager Function2
      cases hdef : Function.isThisDeclarationADefinition with
      | false =>
        rw [hdef] at hkind
        rw [run_declaration Result Replace Function _ hfn hC hdef rfl] at hrun
        split at hrun
        · have he := List.append_cancel_left (Option.some.inj hrun)
          have he2 : e.ReplacementText = (getText Result.SourceManager Function).take
              ((getText Result.SourceManager Function).length - 6) ++ noArg := by
            rw [← List.singleton_inj.mp he]
            rfl
          rw [he2] at ht2
          rw [run_declaration Result2 Replace2 Function2 _ hfn2 hC2 hkind ht2,
            if_neg (noArg_fails_test _)]
        · exact absurd hrun (some_ne_some_append Replace e)
      | true =>
        rw [hdef] at hkind
        rw [run_definition Result Replace Function _ hfn hC hdef rfl] at hrun
        split at hrun
        · rename_i hcond
          obtain ⟨p, -, hp⟩ := (ends_voidArg_iff _).mp hcond
          have he := List.append_cancel_left (Option.some.inj hrun)
          have he2 : e.ReplacementText = p ++ noArg ++
              (getText Result.SourceManager Function).drop
                (end_of_decl (getText Result.SourceManager Function)) := by
            rw [← List.singleton_inj.mp he, hp, take_voidArg]
            rfl
          rw [he2] at ht2
          rw [ht2] at hlen2
          rw [run_definition Result2 Replace2 Function2 _ hfn2 hC2 hkind ht2,
            rewritten_declarator _ p hlen hp hlen2, if_neg (noArg_fails_test _)]
        · exact absurd hrun (some_ne_some_append Replace e)

/-- C5 (witness): the definition of `foo` in `orig.cpp` is rewritten, and the
rewritten definition is left alone. -/
theorem C5_second_pass_is_silent_witness :
    run (origMatch fooDefinition) []
      = some ([] ++ [Replacement.ofNode fooDefinition
          "int foo()\n\x7b\n    return 0;\n\x7d".toList]) ∧
    getText (wholeMatch false true "int foo()\n\x7b\n    return 0;\n\x7d".toList).SourceManager
      (wholeNode false true "int foo()\n\x7b\n    return 0;\n\x7d".toList)
      = "int foo()\n\x7b\n    return 0;\n\x7d".toList ∧
    run (wholeMatch false true "int foo()\n\x7b\n    return 0;\n\x7d".toList) [] = some [] :=
  ⟨by decide, by decide,
   C5_second_pass_is_silent (origMatch fooDefinition)
     (wholeMatch false true "int foo()\n\x7b\n    return 0;\n\x7d".toList) [] []
     fooDefinition (wholeNode false true "int foo()\n\x7b\n    return 0;\n\x7d".toList)
     (Replacement.ofNode fooDefinition "int foo()\n\x7b\n    return 0;\n\x7d".toList)
     rfl rfl rfl (by decide) (by decide)⟩

/-! ## Other spellings of the parameter list -/

/-- C6 (as stated, refuted): the definition
`auto f() -> int(*)(void) { return 0; }` is not extern "C", its text is
`h ++ L ++ m ++ "{" ++ b` with `h = "auto f"` free of parentheses and braces,
parameter list `L = "()"` different from `(void)` and `m = " -> int(*)(void) "`
free of braces, yet `run` records an Edit for it, which turns the return type
into `int(*)()`. -/
theorem C6_trailing_return_type_is_rewritten :
    (wholeNode false true trailingReturn).isExternC = false ∧
    (wholeNode false true trailingReturn).isThisDeclarationADefinition = true ∧
    getText (wholeMatch false true trailingReturn).SourceManager
      (wholeNode false true trailingReturn)
      = "auto f".toList ++ noArg ++ (" -> int(*)(void) ".toList ++ '{' :: " return 0; \x7d".toList) ∧
    (∀ c ∈ "auto f".toList, c ≠ '(' ∧ c ≠ ')' ∧ c ≠ '{' ∧ c ≠ '}') ∧
    noArg ≠ voidArg ∧
    (∀ c ∈ " -> int(*)(void) ".toList, c ≠ '{' ∧ c ≠ '}') ∧
    run (wholeMatch false true trailingReturn) []
      = some [Replacement.ofNode (wholeNode false true trailingReturn)
          "auto f() -> int(*)() \x7b return 0; \x7d".toList] ∧
    run (wholeMatch false true trailingReturn) [] ≠ some [] := by
  decide

/-! ## The declaration of `foo` -/

/-- C7 (as stated, refuted): for the declaration `int foo(void);` on line 3 of
`orig.cpp` the node text is `int foo(void)`, without the semicolon, and the
Edit that `run` records has the replacement text `int foo()`, which is not
`int foo();`; and were the semicolon part of the node text, `run` would record
no Edit at all. -/
theorem C7_replacement_has_no_semicolon :
    fooDeclaration.isExternC = false ∧
    fooDeclaration.isThisDeclarationADefinition = false ∧
    getText (origMatch fooDeclaration).SourceManager fooDeclaration = "int foo(void)".toList ∧
    run (origMatch fooDeclaration) []
      = some [Replacement.ofNode fooDeclaration "int foo()".toList] ∧
    run (origMatch fooDeclaration) []
      ≠ some [Replacement.ofNode fooDeclaration "int foo();".toList] ∧
    getText (wholeMatch false false "int foo(void);".toList).SourceManager
      (wholeNode false false "int foo(void);".toList) = "int foo(void);".toList ∧
    run (wholeMatch false false "int foo(void);".toList) [] = some [] := by
  decide

/-- C7 (amended): for a pure declaration that is not extern "C" and whose
extracted text is `int foo(void)` (the semicolon that follows is not part of
the node), the Edit that `run` records has the replacement text `int foo()`. -/
theorem C7_foo_declaration (Result : MatchResult) (Replace : Replacements)
    (Function : FunctionDecl)
    (hfn : Result.Nodes "fn" = some Function)
    (hC : Function.isExternC = false)
    (hdef : Function.isThisDeclarationADefinition = false)
    (ht : getText Result.SourceManager Function = "int foo(void)".toList) :
    run Result Replace
      = some (Replace ++ [Replacement.ofNode Function "int foo()".toList]) := by
  have h1 : "int foo(void)".toList = "int foo".toList ++ voidArg := by decide
  have h2 : "int foo()".toList = "int foo".toList ++ noArg := by decide
  rw [h1] at ht
  rw [run_declaration Result Replace Function _ hfn hC hdef ht,
    if_pos ((ends_voidArg_iff _).mpr ⟨"int foo".toList, by decide, rfl⟩), take_voidArg, h2]

/-- C7 (witness): line 3 of `orig.cpp`; the replacement `int foo()` followed
by the semicolon that `orig.cpp` has after the node reads `int foo();`. -/
theorem C7_foo_declaration_witness :
    getText (origMatch fooDeclaration).SourceManager fooDeclaration = "int foo(void)".toList ∧
    run (origMatch fooDeclaration) [⟨⟨1⟩, ⟨2⟩, noArg⟩]
      = some ([⟨⟨1⟩, ⟨2⟩, noArg⟩] ++ [Replacement.ofNode fooDeclaration "int foo()".toList]) ∧
    "int foo()".toList ++ (origCpp.drop 32).take 1 = "int foo();".toList :=
  ⟨by decide,
   C7_foo_declaration (origMatch fooDeclaration) [⟨⟨1⟩, ⟨2⟩, noArg⟩] fooDeclaration
     rfl rfl rfl (by decide),
   by decide⟩

/-! ## Extraction that fails -/

/-- C8: `getText`, which is a total function, returns the empty string whenever
the start or the end spelling location is invalid, the character data at the
start is reported invalid, the start and the end of the last token lie in
different files, or the end offset is smaller than the start offset. -/
theorem C8_getText_empty (SM : SourceManager) (Node : FunctionDecl)
    (h : (SM.getSpellingLoc Node.getLocStart).isValid = false ∨
      (SM.getSpellingLoc Node.getLocEnd).isValid = false ∨
      (SM.getCharacterData (SM.getSpellingLoc Node.getLocStart)).2 = true ∨
      (SM.getDecomposedLoc (SM.getSpellingLoc Node.getLocStart)).first
        ≠ (SM.getDecomposedLoc
            (SM.getLocForEndOfToken (SM.getSpellingLoc Node.getLocEnd))).first ∨
      (SM.getDecomposedLoc (SM.getLocForEndOfToken (SM.getSpellingLoc Node.getLocEnd))).second
        < (SM.getDecomposedLoc (SM.getSpellingLoc Node.getLocStart)).second) :
    getText SM Node = [] := by
  unfold getText
  simp only
  split
  · rfl
  · rename_i hvalid
    simp only [Bool.or_eq_true, Bool.not_eq_true', not_or, Bool.not_eq_false] at hvalid
    split
    · rfl
    · rename_i hdata
      split
      · rfl
      · rename_i hfile
        split
        · rfl
        · rename_i hoff
          rcases h with h | h | h | h | h
          · rw [hvalid.1] at h
            exact absurd h (by decide)
          · rw [hvalid.2] at h
            exact absurd h (by decide)
          · exact absurd h hdata
          · exact absurd h hfile
          · exact absurd h hoff

/-- C8 (witness): one node for each of the five failures, over the text of
`orig.cpp`. -/
theorem C8_getText_empty_witness :
    getText (oneFile origCpp) ⟨false, false, ⟨0⟩, ⟨32⟩⟩ = [] ∧
    getText (oneFile origCpp) ⟨false, false, ⟨20⟩, ⟨0⟩⟩ = [] ∧
    getText (invalidData origCpp) fooDeclaration = [] ∧
    getText (manyFiles origCpp) fooDeclaration = [] ∧
    getText (oneFile origCpp) ⟨false, false, ⟨32⟩, ⟨20⟩⟩ = [] :=
  ⟨C8_getText_empty (oneFile origCpp) ⟨false, false, ⟨0⟩, ⟨32⟩⟩ (Or.inl rfl),
   C8_getText_empty (oneFile origCpp) ⟨false, false, ⟨20⟩, ⟨0⟩⟩ (Or.inr (Or.inl rfl)),
   C8_getText_empty (invalidData origCpp) fooDeclaration (Or.inr (Or.inr (Or.inl rfl))),
   C8_getText_empty (manyFiles origCpp) fooDeclaration
     (Or.inr (Or.inr (Or.inr (Or.inl (by decide))))),
   C8_getText_empty (oneFile origCpp) ⟨false, false, ⟨32⟩, ⟨20⟩⟩
     (Or.inr (Or.inr (Or.inr (Or.inr (by decide)))))⟩

/-- C9: for every function node, declaration or definition, if `getText` yields
the empty string then `run` returns normally and leaves the replacements
exactly as they were. -/
theorem C9_empty_text_skipped (Result : MatchResult) (Replace : Replacements)
    (Function : FunctionDecl)
    (hfn : Result.Nodes "fn" = some Function)
    (ht : getText Result.SourceManager Function = []) :
    run Result Replace = some Replace := by
  cases hC : Function.isExternC with
  | true => exact run_externC Result Replace Function hfn hC
  | false =>
    cases hdef : Function.isThisDeclarationADefinition with
    | false =>
      rw [run_declaration Result Replace Function _ hfn hC hdef ht, if_neg]
      simp
    | true =>
      rw [run_definition Result Replace Function _ hfn hC hdef ht, if_neg]
      simp

/-- C9 (witness): the definition of `foo` in `orig.cpp`, when its character
data is reported invalid, is skipped and the Edit already held is kept. -/
theorem C9_empty_text_skipped_witness :
    getText (invalidData origCpp) fooDefinition = [] ∧
    run ⟨fun _ => some fooDefinition, invalidData origCpp⟩ [⟨⟨1⟩, ⟨2⟩, noArg⟩]
      = some [⟨⟨1⟩, ⟨2⟩, noArg⟩] :=
  ⟨by decide,
   C9_empty_text_skipped ⟨fun _ => some fooDefinition, invalidData origCpp⟩
     [⟨⟨1⟩, ⟨2⟩, noArg⟩] fooDefinition rfl (by decide)⟩

/-! ## The replacements held -/

/-- C10: for every match result and every prior collection of replacements, one
call of `run` returns normally with the prior replacements, unchanged and in
their order, followed by at most one new Edit, and that Edit spans the
function node bound to `"fn"`. -/
theorem C10_appends_at_most_one_edit (Result : MatchResult) (Replace : Replacements) :
    ∃ added : List Replacement,
      run Result Replace = some (Replace ++ added) ∧ added.length ≤ 1 ∧
      ∀ e ∈ added, ∃ Function, Result.Nodes "fn" = some Function ∧
        e.Begin = Function.getLocStart ∧ e.End = Function.getLocEnd := by
  cases hfn : Result.Nodes "fn" with
  | none => exact ⟨[], by simp [run, hfn], by simp, by simp⟩
  | some Function =>
    cases hC : Function.isExternC with
    | true =>
      exact ⟨[], by simp [run_externC Result Replace Function hfn hC], by simp, by simp⟩
    | false =>
      cases hdef : Function.isThisDeclarationADefinition with
      | false =>
        rw [run_declaration Result Replace Function _ hfn hC hdef rfl]
        split
        · refine ⟨[_], rfl, by simp, ?_⟩
          intro e he
          rw [List.mem_singleton.mp he]
          exact ⟨Function, rfl, rfl, rfl⟩
        · exact ⟨[], by simp, by simp, by simp⟩
      | true =>
        rw [run_definition Result Replace Function _ hfn hC hdef rfl]
        split
        · refine ⟨[_], rfl, by simp, ?_⟩
          intro e he
          rw [List.mem_singleton.mp he]
          exact ⟨Function, rfl, rfl, rfl⟩
        · exact ⟨[], by simp, by simp, by simp⟩

/-! ## The declarator found and the declarator of the spec -/

theorem end_of_decl_le_length (t : List Char) : end_of_decl t ≤ t.length := by
  unfold end_of_decl find_last_of
  cases hl : lastIndex ')' (t.take (find_first_of t '{' + 1)) with
  | none =>
    have hnp : (npos + 1) % 2 ^ 64 = 0 := by decide
    simp only [Option.getD_none, hnp]
    omega
  | some j =>
    obtain ⟨x, y, hxy, -, hj⟩ := lastIndex_some_split hl
    have h1 := congrArg List.length hxy
    simp only [List.length_take, List.length_append, List.length_cons] at h1
    have h2 : (j + 1) % 2 ^ 64 ≤ j + 1 := Nat.mod_le _ _
    simp only [Option.getD_some]
    omega

theorem takeWhile_not_brace (pre : List Char) (hpre : '{' ∉ pre) (rest : List Char) :
    (pre ++ rest).takeWhile (fun c => c != '{')
      = pre ++ rest.takeWhile (fun c => c != '{') := by
  apply List.takeWhile_append_of_pos
  intro a ha
  have : a ≠ '{' := fun e => hpre (e ▸ ha)
  simpa using this

/-- Every text splits at its first `{`, if it has one. -/
theorem brace_split (t : List Char) :
    ∃ pre rest, t = pre ++ rest ∧ '{' ∉ pre ∧ (rest = [] ∨ ∃ b, rest = '{' :: b) ∧
      t.takeWhile (fun c => c != '{') = pre := by
  cases hf : firstIndex '{' t with
  | none =>
    have hno := firstIndex_none_not_mem hf
    refine ⟨t, [], by simp, hno, Or.inl rfl, ?_⟩
    have h := takeWhile_not_brace t hno []
    simpa using h
  | some i =>
    obtain ⟨pre, post, rfl, hpre, rfl⟩ := firstIndex_some_split hf
    refine ⟨pre, '{' :: post, rfl, hpre, Or.inr ⟨post, rfl⟩, ?_⟩
    rw [takeWhile_not_brace pre hpre]
    simp

theorem end_of_decl_eq_zero (t : List Char)
    (h : ')' ∉ t.takeWhile (fun c => c != '{')) : end_of_decl t = 0 := by
  obtain ⟨pre, rest, rfl, hpre, hrest, htw⟩ := brace_split t
  rw [htw] at h
  have hnot : ')' ∉ (pre ++ rest).take (find_first_of (pre ++ rest) '{' + 1) := by
    rcases hrest with rfl | ⟨b, rfl⟩
    · intro hmem
      exact h (by simpa using List.mem_of_mem_take hmem)
    · simp only [find_first_of, firstIndex_append pre b hpre, Option.getD_some,
        take_succ_append_cons]
      intro hmem
      rcases List.mem_append.mp hmem with h1 | h1
      · exact h h1
      · exact absurd h1 (by decide)
  have hnp : (npos + 1) % 2 ^ 64 = 0 := by decide
  simp only [end_of_decl, find_last_of, lastIndex_eq_none hnot, Option.getD_none, hnp]

theorem take_end_of_decl_eq_declSpanText (t : List Char) (hlen : t.length ≤ npos) :
    t.take (end_of_decl t) = declSpanText t := by
  obtain ⟨pre, rest, rfl, hpre, hrest, htw⟩ := brace_split t
  cases hl : lastIndex ')' pre with
  | none =>
    have hno := lastIndex_none_not_mem hl
    have h0 : end_of_decl (pre ++ rest) = 0 := end_of_decl_eq_zero _ (by rw [htw]; exact hno)
    have hd : pre.reverse.dropWhile (fun c => c != ')') = [] := by
      rw [List.dropWhile_eq_nil_iff]
      intro a ha
      have : a ≠ ')' := fun e => hno (e ▸ List.mem_reverse.mp ha)
      simpa using this
    simp [declSpanText, htw, h0, hd]
  | some j =>
    obtain ⟨x, m, rfl, hm, -⟩ := lastIndex_some_split hl
    have hx : '{' ∉ x := fun e => hpre (by simp [e])
    have hm2 : '{' ∉ m := fun e => hpre (by simp [e])
    have heq : x ++ ')' :: m ++ rest = x ++ ')' :: (m ++ rest) := by simp
    rw [heq] at hlen
    have heod := end_of_decl_split x m rest hx hm hm2 hrest hlen
    have hd : (x ++ ')' :: m).reverse.dropWhile (fun c => c != ')') = ')' :: x.reverse := by
      have h1 : (x ++ ')' :: m).reverse = m.reverse ++ ')' :: x.reverse := by simp
      rw [h1, List.dropWhile_append_of_pos]
      · simp
      · intro a ha
        have : a ≠ ')' := fun e => hm (e ▸ List.mem_reverse.mp ha)
        simpa using this
    rw [declSpanText, htw, hd, heq, heod, take_succ_append_cons]
    simp

/-- C11: for every definition that is not extern "C", with extracted text `t`
(empty or not), `run` records an Edit if and only if the spec's
`declSpanText t` has more than six characters and its last six characters are
`(void)`, and it records nothing otherwise; in particular a `declSpanText`
that is exactly `(void)` yields no Edit. -/
theorem C11_definition_eligibility (Result : MatchResult) (Replace : Replacements)
    (Function : FunctionDecl) (t : List Char)
    (hfn : Result.Nodes "fn" = some Function)
    (hC : Function.isExternC = false)
    (hdef : Function.isThisDeclarationADefinition = true)
    (ht : getText Result.SourceManager Function = t) :
    substr t 0 (end_of_decl t) = some (declSpanText t) ∧
    ((∃ e, run Result Replace = some (Replace ++ [e])) ↔
      (6 < (declSpanText t).length ∧
        (declSpanText t).drop ((declSpanText t).length - 6) = voidArg)) ∧
    (run Result Replace = some Replace ↔
      ¬ (6 < (declSpanText t).length ∧
        (declSpanText t).drop ((declSpanText t).length - 6) = voidArg)) ∧
    (declSpanText t = voidArg → run Result Replace = some Replace) := by
  have hlen := getText_length_le_npos Result.SourceManager Function
  rw [ht] at hlen
  have hrun := run_definition Result Replace Function t hfn hC hdef ht
  rw [take_end_of_decl_eq_declSpanText t hlen] at hrun
  refine ⟨by rw [substr_zero, take_end_of_decl_eq_declSpanText t hlen], ?_⟩
  by_cases hcond : 6 < (declSpanText t).length ∧
      (declSpanText t).drop ((declSpanText t).length - 6) = voidArg
  · rw [if_pos hcond] at hrun
    refine ⟨⟨fun _ => hcond, fun _ => ⟨_, hrun⟩⟩, ⟨fun h => ?_, fun h => absurd hcond h⟩, ?_⟩
    · rw [hrun] at h
      exact absurd h.symm (some_ne_some_append Replace _)
    · intro hv
      rw [hv] at hcond
      exact absurd hcond.1 (by decide)
  · rw [if_neg hcond] at hrun
    refine ⟨⟨fun ⟨e, he⟩ => ?_, fun h => absurd h hcond⟩, ⟨fun _ => hcond, fun _ => hrun⟩,
      fun _ => hrun⟩
    rw [hrun] at he
    exact absurd he (some_ne_some_append Replace e)

/-- C11 (witness): the definition of `foo` in `orig.cpp` has the declarator
`int foo(void)` and gets an Edit; a definition whose declarator is `(void)`
alone gets none. -/
theorem C11_definition_eligibility_witness :
    (declSpanText (getText (origMatch fooDefinition).SourceManager fooDefinition)
      = "int foo(void)".toList ∧
    ∃ e, run (origMatch fooDefinition) [] = some ([] ++ [e])) ∧
    (declSpanText "(void)\x7b\x7d".toList = voidArg ∧
    run (wholeMatch false true "(void)\x7b\x7d".toList) [] = some []) :=
  ⟨⟨by decide,
    (C11_definition_eligibility (origMatch fooDefinition) [] fooDefinition
      (getText (origMatch fooDefinition).SourceManager fooDefinition)
      rfl rfl rfl rfl).2.1.mpr (by decide)⟩,
   ⟨by decide,
    (C11_definition_eligibility (wholeMatch false true "(void)\x7b\x7d".toList) []
      (wholeNode false true "(void)\x7b\x7d".toList) "(void)\x7b\x7d".toList
      rfl rfl rfl (by decide)).2.2.2 (by decide)⟩⟩

/-! ## The boundary by indices -/

theorem mem_take_index {c : Char} {t : List Char} {n : Nat} (h : c ∈ t.take n) :
    ∃ k, k < n ∧ t[k]? = some c := by
  obtain ⟨k, hk⟩ := List.mem_iff_getElem?.mp h
  by_cases hkn : k < n
  · exact ⟨k, hkn, by rw [← hk, List.getElem?_take_of_lt hkn]⟩
  · rw [List.getElem?_take_eq_none (by omega)] at hk
    exact absurd hk (by simp)

theorem split_of_indices (t : List Char) (i j : Nat)
    (hi : t[i]? = some '{') (hfirst : ∀ k, k < i → t[k]? ≠ some '{')
    (hj : j < i) (hjc : t[j]? = some ')')
    (hlast : ∀ k, j < k → k < i → t[k]? ≠ some ')') :
    ∃ x m b, t = x ++ ')' :: (m ++ '{' :: b) ∧ x = t.take j ∧ x.length = j ∧
      '{' ∉ x ∧ ')' ∉ m ∧ '{' ∉ m := by
  obtain ⟨hjlt, hjv⟩ := List.getElem?_eq_some_iff.mp hjc
  obtain ⟨hilt, hiv⟩ := List.getElem?_eq_some_iff.mp hi
  have h1 : t.drop j = ')' :: t.drop (j + 1) := by
    rw [List.drop_eq_getElem_cons hjlt, hjv]
  have h2 : (t.drop (j + 1)).drop (i - (j + 1)) = '{' :: t.drop (i + 1) := by
    rw [List.drop_drop, show j + 1 + (i - (j + 1)) = i by omega,
      List.drop_eq_getElem_cons hilt, hiv]
  have h3 : t.drop (j + 1)
      = (t.drop (j + 1)).take (i - (j + 1)) ++ '{' :: t.drop (i + 1) := by
    rw [← h2, List.take_append_drop]
  refine ⟨t.take j, (t.drop (j + 1)).take (i - (j + 1)), t.drop (i + 1), ?_, rfl, ?_, ?_, ?_, ?_⟩
  · rw [← h3, ← h1, List.take_append_drop]
  · rw [List.length_take]
    omega
  · intro hmem
    obtain ⟨k, hk, hkc⟩ := mem_take_index hmem
    exact hfirst k (by omega) hkc
  · intro hmem
    obtain ⟨k, hk, hkc⟩ := mem_take_index hmem
    rw [List.getElem?_drop] at hkc
    exact hlast (j + 1 + k) (by omega) (by omega) hkc
  · intro hmem
    obtain ⟨k, hk, hkc⟩ := mem_take_index hmem
    rw [List.getElem?_drop] at hkc
    exact hfirst (j + 1 + k) (by omega) hkc

/-- C12: for every text `t` that `getText` yields, with its first `{` at index
`i` and `j` the greatest index below `i` that holds a `)`, the declarator that
`run` computes is `t[0..j]` inclusive and the suffix it keeps is the rest of
`t`; the declarator has `j + 1` characters, ends in `)`, holds no `{`, is the
spec's `declSpanText`, and followed by the suffix it gives `t` back. -/
theorem C12_body_boundary (SM : SourceManager) (Function : FunctionDecl) (t : List Char)
    (i j : Nat) (ht : getText SM Function = t)
    (hi : t[i]? = some '{') (hfirst : ∀ k, k < i → t[k]? ≠ some '{')
    (hj : j < i) (hjc : t[j]? = some ')')
    (hlast : ∀ k, j < k → k < i → t[k]? ≠ some ')') :
    end_of_decl t = j + 1 ∧
    substr t 0 (end_of_decl t) = some (t.take (j + 1)) ∧
    substr t (end_of_decl t) npos = some (t.drop (j + 1)) ∧
    (t.take (j + 1)).length = j + 1 ∧
    (t.take (j + 1)).getLast? = some ')' ∧
    '{' ∉ t.take (j + 1) ∧
    declSpanText t = t.take (j + 1) ∧
    t.take (j + 1) ++ t.drop (j + 1) = t := by
  have hlen := getText_length_le_npos SM Function
  rw [ht] at hlen
  have hspec := take_end_of_decl_eq_declSpanText t hlen
  obtain ⟨x, m, b, hsplit, -, hxl, hx, hm, hm2⟩ := split_of_indices t i j hi hfirst hj hjc hlast
  have heod : end_of_decl t = j + 1 := by
    have h := end_of_decl_split x m ('{' :: b) hx hm hm2 (Or.inr ⟨b, rfl⟩) (by rw [← hsplit]; exact hlen)
    rw [← hsplit, hxl] at h
    exact h
  have htake : t.take (j + 1) = x ++ [')'] := by
    rw [hsplit, ← hxl, take_succ_append_cons]
  have hjl : j + 1 ≤ t.length := by
    rw [← heod]
    exact end_of_decl_le_length t
  refine ⟨heod, ?_, ?_, ?_, ?_, ?_, ?_, List.take_append_drop _ _⟩
  · rw [heod, substr_zero]
  · rw [heod]
    exact substr_npos t _ hjl (by omega)
  · rw [List.length_take]
    omega
  · rw [htake, List.getLast?_concat]
  · rw [htake]
    intro hmem
    rcases List.mem_append.mp hmem with h1 | h1
    · exact hx h1
    · exact absurd h1 (by decide)
  · rw [← hspec, heod]

/-- C12 (witness): in the definition of `foo` of `orig.cpp` the first `{` is
at index 14 and the last `)` before it at index 12, so the declarator is the
first 13 characters, `int foo(void)`. -/
theorem C12_body_boundary_witness :
    getText (oneFile origCpp) fooDefinition
      = "int foo(void)\n\x7b\n    return 0;\n\x7d".toList ∧
    substr "int foo(void)\n\x7b\n    return 0;\n\x7d".toList 0
      (end_of_decl "int foo(void)\n\x7b\n    return 0;\n\x7d".toList)
      = some ("int foo(void)\n\x7b\n    return 0;\n\x7d".toList.take (12 + 1)) ∧
    "int foo(void)\n\x7b\n    return 0;\n\x7d".toList.take (12 + 1) = "int foo(void)".toList :=
  ⟨by decide,
   (C12_body_boundary (oneFile origCpp) fooDefinition
     "int foo(void)\n\x7b\n    return 0;\n\x7d".toList 14 12
     (by decide) (by decide) (by decide) (by decide) (by decide)
     (fun k h1 h2 => by
       have hk : k = 13 := by omega
       subst hk
       decide)).2.1,
   by decide⟩

/-! ## Extraction that succeeds -/

/-- C13: when both spelling locations are valid, the character data is valid,
the start and the end of the last token lie in the same file and the end
offset is not below the start offset, `getText` returns the character data
beginning at the start, cut after (end offset of the last token) minus (start
offset) characters; when the buffer holds that many characters from the start
on, as it does when the node lies in the file, the text has exactly that
length, so the last token is included in full. -/
theorem C13_getText_extracts (SM : SourceManager) (Node : FunctionDecl)
    (hs : (SM.getSpellingLoc Node.getLocStart).isValid = true)
    (he : (SM.getSpellingLoc Node.getLocEnd).isValid = true)
    (hdata : (SM.getCharacterData (SM.getSpellingLoc Node.getLocStart)).2 = false)
    (hfile : (SM.getDecomposedLoc (SM.getSpellingLoc Node.getLocStart)).first
      = (SM.getDecomposedLoc
          (SM.getLocForEndOfToken (SM.getSpellingLoc Node.getLocEnd))).first)
    (hoff : (SM.getDecomposedLoc (SM.getSpellingLoc Node.getLocStart)).second
      ≤ (SM.getDecomposedLoc
          (SM.getLocForEndOfToken (SM.getSpellingLoc Node.getLocEnd))).second) :
    getText SM Node
      = (SM.getCharacterData (SM.getSpellingLoc Node.getLocStart)).1.take
          ((SM.getDecomposedLoc
              (SM.getLocForEndOfToken (SM.getSpellingLoc Node.getLocEnd))).second
            - (SM.getDecomposedLoc (SM.getSpellingLoc Node.getLocStart)).second) ∧
    ((SM.getDecomposedLoc (SM.getLocForEndOfToken (SM.getSpellingLoc Node.getLocEnd))).second
        - (SM.getDecomposedLoc (SM.getSpellingLoc Node.getLocStart)).second
        ≤ (SM.getCharacterData (SM.getSpellingLoc Node.getLocStart)).1.length →
      (getText SM Node).length
        = (SM.getDecomposedLoc
              (SM.getLocForEndOfToken (SM.getSpellingLoc Node.getLocEnd))).second
            - (SM.getDecomposedLoc (SM.getSpellingLoc Node.getLocStart)).second) := by
  have hnot : ¬ (SM.getDecomposedLoc
      (SM.getLocForEndOfToken (SM.getSpellingLoc Node.getLocEnd))).second
        < (SM.getDecomposedLoc (SM.getSpellingLoc Node.getLocStart)).second := by omega
  have hget : getText SM Node
      = (SM.getCharacterData (SM.getSpellingLoc Node.getLocStart)).1.take
          ((SM.getDecomposedLoc
              (SM.getLocForEndOfToken (SM.getSpellingLoc Node.getLocEnd))).second
            - (SM.getDecomposedLoc (SM.getSpellingLoc Node.getLocStart)).second) := by
    unfold getText
    simp only [hs, he, hdata, hfile, hnot, Bool.not_true, Bool.or_self, Bool.false_eq_true,
      if_false, ne_eq, not_true_eq_false]
  refine ⟨hget, fun hbuf => ?_⟩
  rw [hget, List.length_take]
  omega

/-- C13 (witness): the defaulted constructor `gronk(void) = default`, whose
last token `default` begins at offset 14 and ends at offset 21, is extracted
whole: 21 characters from offset 0; and the declaration of `foo` in `orig.cpp`
is the 13 characters from offset 19. -/
theorem C13_getText_extracts_witness :
    (getText (longToken gronkDefault 7) gronkNode = gronkDefault.take (21 - 0) ∧
      gronkDefault.take (21 - 0) = "gronk(void) = default".toList) ∧
    (getText (oneFile origCpp) fooDeclaration = (origCpp.drop 19).take (32 - 19) ∧
      (origCpp.drop 19).take (32 - 19) = "int foo(void)".toList) :=
  ⟨⟨(C13_getText_extracts (longToken gronkDefault 7) gronkNode rfl rfl rfl rfl
      (by decide)).1, by decide⟩,
   ⟨(C13_getText_extracts (oneFile origCpp) fooDeclaration rfl rfl rfl rfl
      (by decide)).1, by decide⟩⟩

/-! ## Definitions without a body -/

/-- C14: for every definition that is not extern "C" and whose extracted text
`p ++ "(void)" ++ s` holds no `{`, with `p` non-empty and no `)` in `s` (so
the last `)` of the whole text is the one closing `(void)`), the declarator
ends at that `)` and `run` records exactly one Edit, whose replacement text is
`p ++ "()" ++ s`. -/
theorem C14_no_brace_definition (Result : MatchResult) (Replace : Replacements)
    (Function : FunctionDecl) (p s : List Char)
    (hfn : Result.Nodes "fn" = some Function)
    (hC : Function.isExternC = false)
    (hdef : Function.isThisDeclarationADefinition = true)
    (hp : p ≠ []) (hpb : '{' ∉ p) (hsb : '{' ∉ s) (hsp : ')' ∉ s)
    (ht : getText Result.SourceManager Function = p ++ voidArg ++ s) :
    end_of_decl (p ++ voidArg ++ s) = (p ++ voidArg).length ∧
    run Result Replace
      = some (Replace ++ [Replacement.ofNode Function (p ++ noArg ++ s)]) := by
  have hlen := getText_length_le_npos Result.SourceManager Function
  have hsplit : p ++ voidArg ++ s
      = (p ++ ['(', 'v', 'o', 'i', 'd']) ++ ')' :: (s ++ []) := by simp [voidArg]
  have hx : '{' ∉ p ++ ['(', 'v', 'o', 'i', 'd'] := by
    simp only [List.mem_append, not_or]
    exact ⟨hpb, by decide⟩
  rw [ht, hsplit] at hlen
  have heod := end_of_decl_split _ s [] hx hsp hsb (Or.inl rfl) hlen
  rw [← hsplit] at heod
  have hl : (p ++ ['(', 'v', 'o', 'i', 'd']).length + 1 = (p ++ voidArg).length := by
    simp [voidArg]
  rw [hl] at heod
  have htake : (p ++ voidArg ++ s).take (end_of_decl (p ++ voidArg ++ s)) = p ++ voidArg := by
    rw [heod, List.take_left]
  have hdrop : (p ++ voidArg ++ s).drop (end_of_decl (p ++ voidArg ++ s)) = s := by
    rw [heod, List.drop_left]
  refine ⟨heod, ?_⟩
  rw [run_definition Result Replace Function _ hfn hC hdef ht, htake, hdrop,
    if_pos ((ends_voidArg_iff _).mpr ⟨p, hp, rfl⟩), take_voidArg]

/-- C14 (witness): `gronk(void) = default` becomes `gronk() = default`. -/
theorem C14_no_brace_definition_witness :
    getText gronkMatch.SourceManager gronkNode
      = "gronk".toList ++ voidArg ++ " = default".toList ∧
    run gronkMatch []
      = some ([] ++ [Replacement.ofNode gronkNode
          ("gronk".toList ++ noArg ++ " = default".toList)]) ∧
    "gronk".toList ++ noArg ++ " = default".toList = "gronk() = default".toList :=
  ⟨by decide,
   (C14_no_brace_definition gronkMatch [] gronkNode "gronk".toList " = default".toList
     rfl rfl rfl (by decide) (by decide) (by decide) (by decide) (by decide)).2,
   by decide⟩

/-! ## Index safety -/

theorem substr_le (s : List Char) (pos n : Nat) (h : pos ≤ s.length) :
    substr s pos n = some ((s.drop pos).take n) := by
  have h2 : ¬ pos > s.length := by omega
  simp [substr, h2]

theorem run_returns (Result : MatchResult) (Replace : Replacements) :
    ∃ Replace2, run Result Replace = some Replace2 := by
  cases hfn : Result.Nodes "fn" with
  | none => exact ⟨Replace, by simp [run, hfn]⟩
  | some Function =>
    cases hC : Function.isExternC with
    | true => exact ⟨Replace, run_externC Result Replace Function hfn hC⟩
    | false =>
      cases hdef : Function.isThisDeclarationADefinition with
      | false =>
        rw [run_declaration Result Replace Function _ hfn hC hdef rfl]
        split
        · exact ⟨_, rfl⟩
        · exact ⟨_, rfl⟩
      | true =>
        rw [run_definition Result Replace Function _ hfn hC hdef rfl]
        split
        · exact ⟨_, rfl⟩
        · exact ⟨_, rfl⟩

/-- C15: for every text `t`, empty or not, the computed `end_of_decl` is at
most the length of `t`; when no `)` stands at or before the first `{` (in the
whole text when it has no `{`), `end_of_decl` is `0`, the declarator is empty
and a definition with that text gets no Edit; `text.substr(0, end_of_decl)`
and `text.substr(end_of_decl)` are within bounds, so are the two `length-6`
slices of any string longer than six characters, and `run` always returns
normally, without an out-of-range error. -/
theorem C15_index_safety (Result : MatchResult) (Replace : Replacements) (t : List Char) :
    end_of_decl t ≤ t.length ∧
    (')' ∉ t.takeWhile (fun c => c != '{') →
      end_of_decl t = 0 ∧ substr t 0 (end_of_decl t) = some [] ∧
      ∀ Function, Result.Nodes "fn" = some Function →
        Function.isThisDeclarationADefinition = true →
        getText Result.SourceManager Function = t →
        run Result Replace = some Replace) ∧
    (∃ decl rest, substr t 0 (end_of_decl t) = some decl ∧
      substr t (end_of_decl t) npos = some rest) ∧
    (∀ s : List Char, 6 < s.length →
      ∃ tail head, substr s (s.length - 6) npos = some tail ∧
        substr s 0 (s.length - 6) = some head) ∧
    (∃ Replace2, run Result Replace = some Replace2) := by
  refine ⟨end_of_decl_le_length t, fun hno => ?_, ?_, ?_, run_returns Result Replace⟩
  · have h0 := end_of_decl_eq_zero t hno
    refine ⟨h0, by rw [h0, substr_zero, List.take_zero], ?_⟩
    intro Function hfn hdef ht
    cases hC : Function.isExternC with
    | true => exact run_externC Result Replace Function hfn hC
    | false =>
      rw [run_definition Result Replace Function t hfn hC hdef ht, h0, if_neg]
      simp
  · exact ⟨_, _, substr_zero t _, substr_le t _ npos (end_of_decl_le_length t)⟩
  · intro s hs
    exact ⟨_, _, substr_le s _ npos (by omega), substr_zero s _⟩

/-- C15 (witness): in `MAIN { start(); }` no `)` stands before the first `{`,
so `end_of_decl` is `0` and the definition gets no Edit. -/
theorem C15_index_safety_witness :
    end_of_decl macroMain = 0 ∧ substr macroMain 0 (end_of_decl macroMain) = some [] ∧
    run (wholeMatch false true macroMain) [] = some [] :=
  ⟨((C15_index_safety (wholeMatch false true macroMain) [] macroMain).2.1 (by decide)).1,
   ((C15_index_safety (wholeMatch false true macroMain) [] macroMain).2.1 (by decide)).2.1,
   ((C15_index_safety (wholeMatch false true macroMain) [] macroMain).2.1 (by decide)).2.2
     (wholeNode false true macroMain) rfl rfl (by decide)⟩

/-! ## The parameter list and what follows it -/

theorem declSpanText_isPrefix (w : List Char) : declSpanText w <+: w := by
  have h1 : (w.takeWhile (fun c => c != '{')).reverse.dropWhile (fun c => c != ')')
      <:+ (w.takeWhile (fun c => c != '{')).reverse := List.dropWhile_suffix _
  have h2 : declSpanText w <+: w.takeWhile (fun c => c != '{') := by
    have h3 := List.reverse_prefix.mpr h1
    rw [List.reverse_reverse] at h3
    exact h3
  exact h2.trans (List.takeWhile_prefix _)

theorem declSpanText_of_split (x r : List Char) (hx : '{' ∉ x) (hr : ')' ∉ r)
    (hr2 : '{' ∉ r) : declSpanText (x ++ ')' :: r) = x ++ [')'] := by
  have hno : '{' ∉ x ++ ')' :: r := by
    simp only [List.mem_append, List.mem_cons, not_or]
    exact ⟨hx, by decide, hr2⟩
  have htw : (x ++ ')' :: r).takeWhile (fun c => c != '{') = x ++ ')' :: r := by
    have h := takeWhile_not_brace (x ++ ')' :: r) hno []
    simpa using h
  have hd : (x ++ ')' :: r).reverse.dropWhile (fun c => c != ')') = ')' :: x.reverse := by
    have h1 : (x ++ ')' :: r).reverse = r.reverse ++ ')' :: x.reverse := by simp
    rw [h1, List.dropWhile_append_of_pos]
    · simp
    · intro a ha
      have : a ≠ ')' := fun e => hr (e ▸ List.mem_reverse.mp ha)
      simpa using this
  rw [declSpanText, htw, hd]
  simp

/-- The declarator of a text that begins with `h`, free of `)` and `{`, is `h`
followed by the declarator of the rest, or empty when the rest has none. -/
theorem declSpanText_after (h w b : List Char) (hp : ')' ∉ h) (hb : '{' ∉ h) :
    declSpanText (h ++ (w ++ '{' :: b))
      = if declSpanText w = [] then [] else h ++ declSpanText w := by
  obtain ⟨pre, rest, rfl, hpre, hrest, htw⟩ := brace_split w
  have htw2 : (h ++ (pre ++ rest ++ '{' :: b)).takeWhile (fun c => c != '{') = h ++ pre := by
    have h1 : pre ++ rest ++ '{' :: b = pre ++ (rest ++ '{' :: b) := by simp
    rw [takeWhile_not_brace h hb, h1, takeWhile_not_brace pre hpre]
    rcases hrest with rfl | ⟨b2, rfl⟩ <;> simp
  have hh : h.reverse.dropWhile (fun c => c != ')') = [] := by
    rw [List.dropWhile_eq_nil_iff]
    intro a ha
    have : a ≠ ')' := fun e => hp (e ▸ List.mem_reverse.mp ha)
    simpa using this
  unfold declSpanText
  rw [htw2, htw, List.reverse_append, List.dropWhile_append]
  cases hd : pre.reverse.dropWhile (fun c => c != ')') with
  | nil => simp [hh]
  | cons a as => simp

theorem ends_voidArg_of_paren (h c2 p : List Char)
    (hd : h ++ '(' :: c2 = p ++ voidArg) : voidArg <:+ '(' :: c2 := by
  rcases List.append_eq_append_iff.mp hd with ⟨a2, -, h2⟩ | ⟨c3, -, h2⟩
  · exact ⟨a2, h2.symm⟩
  · cases c3 with
    | nil => exact ⟨[], by simpa using h2⟩
    | cons x xs =>
      have h3 : xs ++ '(' :: c2 = ['v', 'o', 'i', 'd', ')'] := by
        have := (List.cons.inj (show '(' :: ['v', 'o', 'i', 'd', ')'] = x :: (xs ++ '(' :: c2)
          from h2)).2
        exact this.symm
      have h4 : '(' ∈ ['v', 'o', 'i', 'd', ')'] := by
        rw [← h3]
        simp
      exact absurd h4 (by decide)

theorem ends_voidArg_after_paren (x m1 : List Char)
    (hs : voidArg <:+ (x ++ [')']) ++ m1 ++ [')']) : voidArg <:+ m1 ++ [')'] := by
  obtain ⟨q, hq⟩ := hs
  have h1 : (q ++ ['(', 'v', 'o', 'i', 'd']) ++ [')'] = ((x ++ [')']) ++ m1) ++ [')'] := by
    rw [← hq]
    simp [voidArg]
  have h2 : q ++ ['(', 'v', 'o', 'i', 'd'] = (x ++ [')']) ++ m1 := (List.append_inj' h1 rfl).1
  rcases List.append_eq_append_iff.mp h2 with ⟨a2, h3, h4⟩ | ⟨c3, -, h4⟩
  · cases a2 with
    | nil =>
      refine ⟨[], ?_⟩
      simp only [List.nil_append] at h4
      rw [← h4]
      rfl
    | cons y ys =>
      have h5 := congrArg List.getLast? h3
      rw [List.getLast?_concat, List.getLast?_append_of_ne_nil _ (by simp)] at h5
      have hm : ')' ∈ y :: ys := List.mem_of_getLast?_eq_some h5.symm
      have hmem : ')' ∈ ['(', 'v', 'o', 'i', 'd'] := by
        rw [h4]
        exact List.mem_append_left _ hm
      exact absurd hmem (by decide)
  · exact ⟨c3, by rw [h4]; simp [voidArg]⟩

theorem run_definition_spec (Result : MatchResult) (Replace : Replacements)
    (Function : FunctionDecl) (t : List Char) (hfn : Result.Nodes "fn" = some Function)
    (hC : Function.isExternC = false)
    (hdef : Function.isThisDeclarationADefinition = true)
    (ht : getText Result.SourceManager Function = t) :
    run Result Replace =
      if 6 < (declSpanText t).length ∧
          (declSpanText t).drop ((declSpanText t).length - 6) = voidArg then
        some (Replace ++ [Replacement.ofNode Function
          ((declSpanText t).take ((declSpanText t).length - 6) ++ noArg ++
            t.drop (end_of_decl t))])
      else some Replace := by
  have hlen := getText_length_le_npos Result.SourceManager Function
  rw [ht] at hlen
  have hrun := run_definition Result Replace Function t hfn hC hdef ht
  rw [take_end_of_decl_eq_declSpanText t hlen] at hrun
  exact hrun

/-- C6 (amended): for every definition that is not extern "C" and whose text is
`h ++ L ++ m ++ "{" ++ b`, where `h` has no parenthesis or brace and `L` is a
parameter list `"(" ++ inner ++ ")"`, `run` returns normally and records no
Edit unless `L ++ m`, cut before its first `{` if it has one and then after its
last `)` (this is `declSpanText (L ++ m)`), ends in `(void)`; conversely, when it does and `h` is not empty, an
Edit is recorded.  When neither the list nor `m` holds a `{`, this reads: if
`m` holds a `)`, no Edit is recorded unless `m`, cut after its last `)`, ends
in `(void)`; if `m` holds no `)`, no Edit is recorded unless `L` ends in
`(void)`, which for a list without a `(` inside means unless `L` is
`(void)`. -/
theorem C6_other_parameter_list_untouched (Result : MatchResult) (Replace : Replacements)
    (Function : FunctionDecl) (h inner m b : List Char)
    (hfn : Result.Nodes "fn" = some Function)
    (hC : Function.isExternC = false)
    (hdef : Function.isThisDeclarationADefinition = true)
    (hh : ∀ c ∈ h, c ≠ '(' ∧ c ≠ ')' ∧ c ≠ '{' ∧ c ≠ '}')
    (ht : getText Result.SourceManager Function
      = h ++ ('(' :: inner ++ [')']) ++ (m ++ '{' :: b)) :
    (¬ voidArg <:+ declSpanText (('(' :: inner ++ [')']) ++ m) →
      run Result Replace = some Replace) ∧
    (voidArg <:+ declSpanText (('(' :: inner ++ [')']) ++ m) → h ≠ [] →
      ∃ e, run Result Replace = some (Replace ++ [e])) ∧
    ('{' ∉ inner → '{' ∉ m → ∀ m1 m2, m = m1 ++ ')' :: m2 → ')' ∉ m2 →
      ¬ voidArg <:+ m1 ++ [')'] → run Result Replace = some Replace) ∧
    ('{' ∉ inner → '{' ∉ m → ')' ∉ m → ¬ voidArg <:+ '(' :: inner ++ [')'] →
      run Result Replace = some Replace) ∧
    ('(' ∉ inner → '{' ∉ inner → '{' ∉ m → ')' ∉ m → '(' :: inner ++ [')'] ≠ voidArg →
      run Result Replace = some Replace) := by
  have hp : ')' ∉ h := fun hmem => (hh _ hmem).2.1 rfl
  have hb : '{' ∉ h := fun hmem => (hh _ hmem).2.2.1 rfl
  have hassoc : h ++ ('(' :: inner ++ [')']) ++ (m ++ '{' :: b)
      = h ++ ((('(' :: inner ++ [')']) ++ m) ++ '{' :: b) := by simp
  have hrun := run_definition_spec Result Replace Function _ hfn hC hdef ht
  rw [hassoc, declSpanText_after h _ b hp hb] at hrun
  have main : ¬ voidArg <:+ declSpanText (('(' :: inner ++ [')']) ++ m) →
      run Result Replace = some Replace := by
    intro hnot
    rw [hrun, if_neg]
    intro hcond
    obtain ⟨p, -, hpd⟩ := (ends_voidArg_iff _).mp hcond
    obtain ⟨z, hz⟩ := declSpanText_isPrefix (('(' :: inner ++ [')']) ++ m)
    cases hc : declSpanText (('(' :: inner ++ [')']) ++ m) with
    | nil =>
      rw [hc, if_pos rfl] at hpd
      have := congrArg List.length hpd
      simp [voidArg] at this
    | cons x c2 =>
      rw [hc] at hz hnot hpd
      have hx : x = '(' := by
        have h1 : x :: (c2 ++ z) = '(' :: (inner ++ [')'] ++ m) := by simpa using hz
        exact (List.cons.inj h1).1
      subst hx
      rw [if_neg (by simp)] at hpd
      exact hnot (ends_voidArg_of_paren h c2 p hpd)
  have last : '{' ∉ inner → '{' ∉ m → ')' ∉ m → ¬ voidArg <:+ '(' :: inner ++ [')'] →
      run Result Replace = some Replace := by
    intro hin hm hmp hnot
    apply main
    have hx : '{' ∉ '(' :: inner := by
      intro hmem
      rcases List.mem_cons.mp hmem with h2 | h2
      · exact absurd h2 (by decide)
      · exact hin h2
    have heq : ('(' :: inner ++ [')']) ++ m = ('(' :: inner) ++ ')' :: m := by simp
    rw [heq, declSpanText_of_split _ m hx hmp hm]
    exact hnot
  refine ⟨main, ?_, ?_, last, ?_⟩
  · rintro ⟨q, hq⟩ hne
    have hc : declSpanText (('(' :: inner ++ [')']) ++ m) ≠ [] := by
      rw [← hq]
      simp [voidArg]
    rw [if_neg hc, ← hq] at hrun
    have hcond := (ends_voidArg_iff (h ++ (q ++ voidArg))).mpr
      ⟨h ++ q, by simp [hne], by simp⟩
    rw [if_pos hcond] at hrun
    exact ⟨_, hrun⟩
  · intro hin hm m1 m2 hm12 hm2 hnot
    apply main
    subst hm12
    have hx : '{' ∉ ('(' :: inner ++ [')']) ++ m1 := by
      intro hmem
      rcases List.mem_append.mp hmem with h1 | h1
      · rcases List.mem_cons.mp h1 with h2 | h2
        · exact absurd h2 (by decide)
        · rcases List.mem_append.mp h2 with h3 | h3
          · exact hin h3
          · exact absurd h3 (by decide)
      · exact hm (List.mem_append_left _ h1)
    have hm2b : '{' ∉ m2 := fun hmem =>
      hm (List.mem_append_right _ (List.mem_cons_of_mem _ hmem))
    have heq : ('(' :: inner ++ [')']) ++ (m1 ++ ')' :: m2)
        = (('(' :: inner ++ [')']) ++ m1) ++ ')' :: m2 := by simp
    rw [heq, declSpanText_of_split _ m2 hx hm2 hm2b]
    intro hs
    exact hnot (ends_voidArg_after_paren ('(' :: inner) m1 hs)
  · intro hpar hin hm hmp hL
    apply last hin hm hmp
    rintro ⟨q, hq⟩
    have hq2 : q ++ '(' :: ['v', 'o', 'i', 'd', ')'] = [] ++ '(' :: (inner ++ [')']) := by
      simpa [voidArg] using hq
    have hin2 : '(' ∉ inner ++ [')'] := by
      intro hmem
      rcases List.mem_append.mp hmem with h1 | h1
      · exact hpar h1
      · exact absurd h1 (by decide)
    have h3 := (split_at_last_unique (by decide) hin2 hq2).2
    exact hL (by rw [List.cons_append, ← h3]; rfl)

/-- C6 (witness): the definition of `bar` of `orig.cpp`, spelled with `()`,
`void f() throw() {}`, `gronk::gronk() : x(0) {}`,
`void f(void /* see g() */) {}` and `void f(void /* { */) {}` are left alone,
and `auto f() -> int(*)(void) { return 0; }`, where the text after the list,
cut after its last `)`, ends in `(void)`, gets an Edit. -/
theorem C6_other_parameter_list_untouched_witness :
    run (origMatch barDefinition) [] = some [] ∧
    run (wholeMatch false true "void f() throw() \x7b\x7d".toList) [] = some [] ∧
    run (wholeMatch false true "gronk::gronk() : x(0) \x7b\x7d".toList) [] = some [] ∧
    run (wholeMatch false true "void f(void /* see g() */) \x7b\x7d".toList) [] = some [] ∧
    run (wholeMatch false true "void f(void /* \x7b */) \x7b\x7d".toList) [] = some [] ∧
    ∃ e, run (wholeMatch false true trailingReturn) [] = some ([] ++ [e]) :=
  ⟨(C6_other_parameter_list_untouched (origMatch barDefinition) [] barDefinition
      "void bar".toList [] "\n".toList "\n\x7d".toList
      rfl rfl rfl (by decide) (by decide)).2.2.2.2
      (by decide) (by decide) (by decide) (by decide) (by decide),
   (C6_other_parameter_list_untouched
      (wholeMatch false true "void f() throw() \x7b\x7d".toList) []
      (wholeNode false true "void f() throw() \x7b\x7d".toList)
      "void f".toList [] " throw() ".toList "\x7d".toList
      rfl rfl rfl (by decide) (by decide)).2.2.1
      (by decide) (by decide) " throw(".toList " ".toList (by decide) (by decide) (by decide),
   (C6_other_parameter_list_untouched
      (wholeMatch false true "gronk::gronk() : x(0) \x7b\x7d".toList) []
      (wholeNode false true "gronk::gronk() : x(0) \x7b\x7d".toList)
      "gronk::gronk".toList [] " : x(0) ".toList "\x7d".toList
      rfl rfl rfl (by decide) (by decide)).2.2.1
      (by decide) (by decide) " : x(0".toList " ".toList (by decide) (by decide) (by decide),
   (C6_other_parameter_list_untouched
      (wholeMatch false true "void f(void /* see g() */) \x7b\x7d".toList) []
      (wholeNode false true "void f(void /* see g() */) \x7b\x7d".toList)
      "void f".toList "void /* see g() */".toList " ".toList "\x7d".toList
      rfl rfl rfl (by decide) (by decide)).2.2.2.1
      (by decide) (by decide) (by decide) (by decide),
   (C6_other_parameter_list_untouched
      (wholeMatch false true "void f(void /* \x7b */) \x7b\x7d".toList) []
      (wholeNode false true "void f(void /* \x7b */) \x7b\x7d".toList)
      "void f".toList "void /* \x7b */".toList " ".toList "\x7d".toList
      rfl rfl rfl (by decide) (by decide)).1 (by decide),
   (C6_other_parameter_list_untouched (wholeMatch false true trailingReturn) []
      (wholeNode false true trailingReturn) "auto f".toList []
      " -> int(*)(void) ".toList " return 0; \x7d".toList
      rfl rfl rfl (by decide) (by decide)).2.1 (by decide) (by decide)⟩

end RemoveVoidArgs
